import Mathlib

/-!
Verification of the quadtree-terrain component (components/terrain/terrain.hpp).

Only the class header is present in the repository excerpt, so the pure parts
of the implementation (stitch-flag layout, index generation, the two buffer
caches, LOD selection, quadtree construction, constructor validation) are
embedded here as executable Lean definitions.  Definitions taken directly from
the header (the flag bit layout documented at getIndexBuffer, the inline body
of getHeightAt, the edge enumeration order North/East/South/West) follow the
source; everything whose body lives in the missing translation unit is
modelled from the specification and marked as such in its doc comment.

Conventions:
  * a vertex grid has `verts` vertices per side, `verts = 2^p + 1`;
  * a grid position is a pair `(col, row)` with both components `≤ verts - 1`;
  * the flat vertex index is `verts * col + row`;
  * edges are numbered North = 0, East = 1, South = 2, West = 3, the order of
    the `IndexBufferFlags` enumeration in the header.
-/

namespace TerrainVerify

/-! ## Stitch-flag encoding (terrain.hpp lines 87-98) -/

/-- Edge bit positions from the `IndexBufferFlags` enumeration:
`IBF_North = 1, IBF_East = 2, IBF_South = 4, IBF_West = 8`. -/
def IBF_North : Nat := 1
def IBF_East : Nat := 2
def IBF_South : Nat := 4
def IBF_West : Nat := 8

/-- Modelled from the spec: the node-side construction of the `flags` argument
of `Terrain::getIndexBuffer` (the caller, `QuadTreeNode`, is not in the
excerpt).  Per the header doc comment, the first 4*4 bits are the LOD deltas
on each edge (4 bits each, North/East/South/West order) and the next 4 bits
are the LOD level of the index buffer; per spec section 7, a delta beyond the
4-bit range is clamped to the maximum representable value. -/
def makeFlags (ownLod dN dE dS dW : Nat) : Nat :=
  min dN 15 + 16 * min dE 15 + 256 * min dS 15 + 4096 * min dW 15 + 65536 * ownLod

/-- LOD delta field for edge `e` extracted from a flag value
(`(flags >> (4*e)) & 0xf`). -/
def decodeDelta (flags : Nat) (e : Fin 4) : Nat :=
  flags / 16 ^ (e : Nat) % 16

/-- Own-LOD field extracted from a flag value (`flags >> (4*4)`). -/
def decodeLod (flags : Nat) : Nat :=
  flags / 65536

/-! ## Index generation (spec section 4.2)

Modelled from the spec: the body of `Terrain::getIndexBuffer` is not in the
repository excerpt; the generation algorithm below follows spec section 4.2.
The grid is walked at the node's own LOD (`increment = 2 ^ lodLevel`; LOD 0
omits no vertices, per the header doc comment).  When any edge has a nonzero
neighbor delta the outermost ring of quads is replaced by four edge strips;
the strip on edge `e` uses only every `2 ^ (delta e)`-th of the node's own
edge vertices, i.e. boundary vertices at multiples of `2 ^ (lodLevel + delta e)`,
fanning them against the full-density inner ring so both sides of a shared
edge trace the same polyline. -/

/-- Flat index of grid position `(col, row)` in a grid with `verts` vertices
per side. -/
def vertIndex (verts col row : Nat) : Nat := verts * col + row

/-- `start, start + step, ..., start + (count - 1) * step`. -/
def stepList (start step count : Nat) : List Nat :=
  (List.range count).map (fun i => start + i * step)

/-- The two triangles of the grid quad whose lower corner is `(col, row)` and
whose side is `inc`, as grid positions. -/
def quadCoords (inc col row : Nat) : List (Nat × Nat) :=
  [(col, row), (col + inc, row + inc), (col, row + inc),
   (col + inc, row), (col + inc, row + inc), (col, row)]

/-- Full-density quad sweep: quads with lower corners at
`start + i * inc` for `i < count` in both axes. -/
def interiorCoords (inc start count : Nat) : List (Nat × Nat) :=
  (stepList start inc count).flatMap (fun col =>
    (stepList start inc count).flatMap (fun row => quadCoords inc col row))

/-- Grid position on edge `e` at distance `along` from the edge's low corner
and `inward` steps towards the grid center.  North is the `row = verts - 1`
line, East the `col = verts - 1` line, South the `row = 0` line, West the
`col = 0` line. -/
def edgeCoord (verts : Nat) (e : Fin 4) (along inward : Nat) : Nat × Nat :=
  if e = 0 then (along, verts - 1 - inward)
  else if e = 1 then (verts - 1 - inward, along)
  else if e = 2 then (along, inward)
  else (inward, along)

/-- Clamp an along-edge position onto the inner ring span
`[inc, verts - 1 - inc]`. -/
def clampInner (verts inc t : Nat) : Nat :=
  min (max t inc) (verts - 1 - inc)

/-- Snap an along-edge position down to the coarse (outer) step grid. -/
def snapOuter (s t : Nat) : Nat := t / s * s

/-- Stitching strip for edge `e`: outer boundary vertices stepped by the
coarse step `s = 2 ^ (lodLevel + delta)`, fanned against the full-density
inner ring (stepped by `inc = 2 ^ lodLevel`). -/
def edgeStripCoords (verts inc s : Nat) (e : Fin 4) : List (Nat × Nat) :=
  ((List.range ((verts - 1) / s)).flatMap (fun k =>
    [edgeCoord verts e (k * s) 0,
     edgeCoord verts e (k * s + s) 0,
     edgeCoord verts e (clampInner verts inc (k * s)) inc])) ++
  ((List.range ((verts - 1 - 2 * inc) / inc)).flatMap (fun j =>
    [edgeCoord verts e (inc + j * inc) inc,
     edgeCoord verts e (inc + j * inc + inc) inc,
     edgeCoord verts e (snapOuter s (inc + j * inc)) 0]))

/-- All grid positions referenced by the index sequence for a grid of
`verts` vertices per side at LOD `lodLevel` with edge deltas `d`.  With no
deltas the full grid is swept at the node's own density; otherwise the sweep
is trimmed by one increment on every side and the four edge strips are
appended. -/
def genCoords (verts lodLevel : Nat) (d : Fin 4 → Nat) : List (Nat × Nat) :=
  let inc := 2 ^ lodLevel
  if d 0 = 0 ∧ d 1 = 0 ∧ d 2 = 0 ∧ d 3 = 0 then
    interiorCoords inc 0 ((verts - 1) / inc)
  else
    interiorCoords inc inc ((verts - 1 - 2 * inc) / inc) ++
    edgeStripCoords verts inc (2 ^ (lodLevel + d 0)) 0 ++
    edgeStripCoords verts inc (2 ^ (lodLevel + d 1)) 1 ++
    edgeStripCoords verts inc (2 ^ (lodLevel + d 2)) 2 ++
    edgeStripCoords verts inc (2 ^ (lodLevel + d 3)) 3

/-- The generated index sequence: the flat vertex indices of `genCoords`. -/
def generateIndices (verts lodLevel : Nat) (d : Fin 4 → Nat) : List Nat :=
  (genCoords verts lodLevel d).map (fun z => vertIndex verts z.1 z.2)

/-- Index-buffer synthesis for a stitch-flag key: decode the own-LOD and the
four edge-delta fields and generate the index sequence. -/
def synthesizeIndexBuffer (verts flags : Nat) : List Nat :=
  generateIndices verts (decodeLod flags) (fun e => decodeDelta flags e)

/-! ## Buffer caches (terrain.hpp lines 98-113, spec section 4.3) -/

/-- A cached hardware buffer: an identity (allocation number) plus its index
contents. -/
structure BufferEntry where
  id : Nat
  indices : List Nat
deriving DecidableEq

/-- Modelled from the spec: the cache-owning state of a `Terrain` object.
`mIndexBufferMap` and `mUvBufferMap` are the two member maps of the header;
`nextBufferId` numbers fresh buffer allocations so that buffer identity is
observable. -/
structure TerrainState where
  verts : Nat
  mIndexBufferMap : List (Nat × BufferEntry)
  mUvBufferMap : List (Nat × Nat)
  nextBufferId : Nat
deriving DecidableEq

/-- Modelled from the spec: `Terrain::getIndexBuffer` (body not in the
excerpt).  Per spec section 4.3, `get(key)` returns an existing entry if
present, else synthesizes and inserts one; entries are never evicted. -/
def getIndexBuffer (s : TerrainState) (flags : Nat) : BufferEntry × TerrainState :=
  match s.mIndexBufferMap.lookup flags with
  | some b => (b, s)
  | none =>
    let b : BufferEntry := ⟨s.nextBufferId, synthesizeIndexBuffer s.verts flags⟩
    (b, { s with mIndexBufferMap := (flags, b) :: s.mIndexBufferMap,
                 nextBufferId := s.nextBufferId + 1 })

/-- Modelled from the spec: `Terrain::getVertexBuffer` (body not in the
excerpt), keyed by the number of vertices on one side; same
synthesize-on-miss, never-evict contract. -/
def getVertexBuffer (s : TerrainState) (numVertsOneSide : Nat) : Nat × TerrainState :=
  match s.mUvBufferMap.lookup numVertsOneSide with
  | some b => (b, s)
  | none =>
    (s.nextBufferId, { s with mUvBufferMap := (numVertsOneSide, s.nextBufferId) :: s.mUvBufferMap,
                              nextBufferId := s.nextBufferId + 1 })

/-! ## LOD selection (spec sections 4.1 and 8) -/

/-- Distance from coordinate `a` to the interval `[lo, hi]` (zero inside). -/
def axisDistance (a lo hi : ℤ) : ℤ :=
  max (lo - a) (max 0 (a - hi))

/-- Modelled from the spec: squared distance from the camera position
`(px, py)` to the bounding box with corner `(bx, by2)` and side `bs`, the
distance metric of `QuadTreeNode` updates (body not in the excerpt). -/
def distSqToBox (bx by2 bs px py : ℤ) : ℤ :=
  axisDistance px bx (bx + bs) ^ 2 + axisDistance py by2 (by2 + bs) ^ 2

/-- Modelled from the spec: the monotonic, levels-based threshold function
mapping a distance to a discrete LOD — the number of thresholds the distance
has passed. -/
def computeLOD (thresholds : List ℤ) (dist : ℤ) : Nat :=
  thresholds.countP (fun thr => decide (thr ≤ dist))

/-! ## Quadtree (terrain.hpp line 82, spec section 4.1) -/

/-- Modelled from the spec: a `QuadTreeNode` is either a leaf batch or a
fully subdivided node with exactly four children; it carries its bounds
(corner and side, in cell units) and a per-frame LOD value. -/
inductive QTree where
  | leaf (x y size : ℤ) (lod : Nat)
  | node (x y size : ℤ) (lod : Nat) (c0 c1 c2 c3 : QTree)
deriving DecidableEq

/-- Bounds corner x of a node. -/
def QTree.bX : QTree → ℤ
  | .leaf x _ _ _ => x
  | .node x _ _ _ _ _ _ _ => x

/-- Bounds corner y of a node. -/
def QTree.bY : QTree → ℤ
  | .leaf _ y _ _ => y
  | .node _ y _ _ _ _ _ _ => y

/-- Side length of a node's bounds. -/
def QTree.bSize : QTree → ℤ
  | .leaf _ _ s _ => s
  | .node _ _ s _ _ _ _ _ => s

/-- Modelled from the spec: `Terrain::buildQuadTree` (body not in the
excerpt) recursively partitions the bounds into four quadrants until a
quadrant's side reaches the minimum batch size; `k` is the number of
subdivision levels, so the side of the built tree is `minBatch * 2 ^ k`. -/
def buildQuadTree (minBatch x y : ℤ) : Nat → QTree
  | 0 => .leaf x y minBatch 0
  | k + 1 =>
    .node x y (minBatch * 2 ^ (k + 1)) 0
      (buildQuadTree minBatch x y k)
      (buildQuadTree minBatch (x + minBatch * 2 ^ k) y k)
      (buildQuadTree minBatch x (y + minBatch * 2 ^ k) k)
      (buildQuadTree minBatch (x + minBatch * 2 ^ k) (y + minBatch * 2 ^ k) k)

/-- Modelled from the spec: the per-frame LOD update pass of
`Terrain::update` — recompute every node's LOD from the camera position and
the threshold table, touching nothing else. -/
def updateLODs (thresholds : List ℤ) (px py : ℤ) : QTree → QTree
  | .leaf x y s _ => .leaf x y s (computeLOD thresholds (distSqToBox x y s px py))
  | .node x y s _ c0 c1 c2 c3 =>
    .node x y s (computeLOD thresholds (distSqToBox x y s px py))
      (updateLODs thresholds px py c0) (updateLODs thresholds px py c1)
      (updateLODs thresholds px py c2) (updateLODs thresholds px py c3)

/-- The topology of a tree: bounds and child structure with the per-frame
LOD state erased. -/
inductive QShape where
  | leaf (x y size : ℤ)
  | node (x y size : ℤ) (c0 c1 c2 c3 : QShape)
deriving DecidableEq

/-- Erase the per-frame LOD state of a tree. -/
def shape : QTree → QShape
  | .leaf x y s _ => .leaf x y s
  | .node x y s _ c0 c1 c2 c3 => .node x y s (shape c0) (shape c1) (shape c2) (shape c3)

/-- Membership of the point `(px, py)` in the half-open box with corner
`(x, y)` and side `s`. -/
def inBox (x y s px py : ℤ) : Prop :=
  x ≤ px ∧ px < x + s ∧ y ≤ py ∧ py < y + s

instance (x y s px py : ℤ) : Decidable (inBox x y s px py) := by
  unfold inBox; infer_instance

/-- Membership of the point `(px, py)` in the bounds of node `t`. -/
def inNodeBox (t : QTree) (px py : ℤ) : Prop :=
  inBox t.bX t.bY t.bSize px py

/-- Structural well-formedness of a tree with batch-size limits `minB` and
`maxB`: every leaf's side is within `[minB, maxB]`, and every inner node's
four children cover its bounds with no gap and no overlap. -/
def WF (minB maxB : ℤ) : QTree → Prop
  | .leaf _ _ s _ => minB ≤ s ∧ s ≤ maxB
  | .node x y s _ c0 c1 c2 c3 =>
    (∀ px py, inBox x y s px py ↔
      (inNodeBox c0 px py ∨ inNodeBox c1 px py ∨ inNodeBox c2 px py ∨ inNodeBox c3 px py)) ∧
    (∀ px py,
      ¬(inNodeBox c0 px py ∧ inNodeBox c1 px py) ∧
      ¬(inNodeBox c0 px py ∧ inNodeBox c2 px py) ∧
      ¬(inNodeBox c0 px py ∧ inNodeBox c3 px py) ∧
      ¬(inNodeBox c1 px py ∧ inNodeBox c2 px py) ∧
      ¬(inNodeBox c1 px py ∧ inNodeBox c3 px py) ∧
      ¬(inNodeBox c2 px py ∧ inNodeBox c3 px py)) ∧
    WF minB maxB c0 ∧ WF minB maxB c1 ∧ WF minB maxB c2 ∧ WF minB maxB c3

/-! ## Terrain construction (terrain.hpp lines 30-31, 77-80, spec section 7) -/

/-- Search for an exponent `k ≤ fuel` with `size = minBatch * 2 ^ k`. -/
def findPow2Exp (size minBatch : ℤ) : Nat → Option Nat
  | 0 => if size = minBatch then some 0 else none
  | k + 1 => if size = minBatch * 2 ^ (k + 1) then some (k + 1) else findPow2Exp size minBatch k

/-- The terrain bounds are a power-of-two-compatible size for the quadtree:
the side is `minBatch * 2 ^ k` for some subdivision depth `k`. -/
def pow2Compatible (size minBatch : ℤ) : Bool :=
  (findPow2Exp size minBatch size.toNat).isSome

/-- The configuration a successfully constructed `Terrain` owns. -/
structure TerrainConfig where
  mMinBatchSize : ℤ
  mMaxBatchSize : ℤ
  mRootNode : QTree
deriving DecidableEq

/-- Modelled from the spec: the `Terrain` constructor (body not in the
excerpt).  Per spec section 7, a minimum batch size not below the maximum, or
bounds that are not a power-of-two-compatible size, are fatal at
construction and rejected before the tree is built. -/
def mkTerrain (minBatch maxBatch size : ℤ) : Option TerrainConfig :=
  if maxBatch ≤ minBatch then none
  else
    match findPow2Exp size minBatch size.toNat with
    | none => none
    | some k => some ⟨minBatch, maxBatch, buildQuadTree minBatch 0 0 k⟩

/-! ## getHeightAt (terrain.hpp line 40) -/

/-- From the source, verbatim inline body:
`float getHeightAt (const Ogre::Vector3& worldPos) { return 0; }`.
The storage argument stands for the `mStorage` member the body could have
consulted but does not. -/
def getHeightAt (storage : ℤ × ℤ → ℚ) (worldPos : ℤ × ℤ × ℤ) : ℚ := 0

/-- A small concrete cache state used to witness the cache theorems. -/
def sampleState : TerrainState :=
  ⟨5, [(5, ⟨0, []⟩), (7, ⟨1, []⟩)], [(3, 2)], 9⟩

/-! ## Membership lemmas for the index generator -/

theorem mem_stepList (start step count x : Nat) :
    x ∈ stepList start step count ↔ ∃ i < count, x = start + i * step := by
  simp [stepList, List.mem_map, List.mem_range, eq_comm]

theorem mem_quadCoords (inc c r : Nat) (z : Nat × Nat) :
    z ∈ quadCoords inc c r ↔
      (z = (c, r) ∨ z = (c + inc, r + inc) ∨ z = (c, r + inc) ∨ z = (c + inc, r)) := by
  simp [quadCoords]; tauto

theorem mem_interiorCoords (inc start count : Nat) (z : Nat × Nat) :
    z ∈ interiorCoords inc start count ↔
      ∃ i < count, ∃ j < count,
        (z = (start + i * inc, start + j * inc) ∨
         z = (start + i * inc + inc, start + j * inc + inc) ∨
         z = (start + i * inc, start + j * inc + inc) ∨
         z = (start + i * inc + inc, start + j * inc)) := by
  simp only [interiorCoords, List.mem_flatMap, mem_stepList]
  constructor
  · rintro ⟨c, ⟨i, hi, rfl⟩, r, ⟨j, hj, rfl⟩, hq⟩
    exact ⟨i, hi, j, hj, (mem_quadCoords _ _ _ _).1 hq⟩
  · rintro ⟨i, hi, j, hj, hq⟩
    exact ⟨start + i * inc, ⟨i, hi, rfl⟩, start + j * inc, ⟨j, hj, rfl⟩,
      (mem_quadCoords _ _ _ _).2 hq⟩

theorem interiorCoords_components (inc start count : Nat) (z : Nat × Nat)
    (hz : z ∈ interiorCoords inc start count) :
    (∃ i ≤ count, z.1 = start + i * inc) ∧ (∃ j ≤ count, z.2 = start + j * inc) := by
  rw [mem_interiorCoords] at hz
  obtain ⟨i, hi, j, hj, hq⟩ := hz
  have h1 : start + i * inc + inc = start + (i + 1) * inc := by ring
  have h2 : start + j * inc + inc = start + (j + 1) * inc := by ring
  rcases hq with h | h | h | h <;> rw [h] <;> constructor
  · exact ⟨i, by omega, rfl⟩
  · exact ⟨j, by omega, rfl⟩
  · exact ⟨i + 1, by omega, h1⟩
  · exact ⟨j + 1, by omega, h2⟩
  · exact ⟨i, by omega, rfl⟩
  · exact ⟨j + 1, by omega, h2⟩
  · exact ⟨i + 1, by omega, h1⟩
  · exact ⟨j, by omega, rfl⟩

theorem exists_quad_corner (inc count i : Nat) (hc : 0 < count) (hi : i ≤ count) :
    ∃ k < count, i * inc = k * inc ∨ i * inc = k * inc + inc := by
  rcases Nat.lt_or_ge i count with h | h
  · exact ⟨i, h, Or.inl rfl⟩
  · have hic : i = count := le_antisymm hi h
    subst hic
    refine ⟨i - 1, by omega, Or.inr ?_⟩
    have h1 : i - 1 + 1 = i := by omega
    calc i * inc = (i - 1 + 1) * inc := by rw [h1]
    _ = (i - 1) * inc + inc := by ring

theorem interiorCoords_mem_of (inc start count i j : Nat) (hc : 0 < count)
    (hi : i ≤ count) (hj : j ≤ count) :
    ((start + i * inc, start + j * inc) : Nat × Nat) ∈ interiorCoords inc start count := by
  rw [mem_interiorCoords]
  obtain ⟨i2, hi2, hci⟩ := exists_quad_corner inc count i hc hi
  obtain ⟨j2, hj2, hcj⟩ := exists_quad_corner inc count j hc hj
  refine ⟨i2, hi2, j2, hj2, ?_⟩
  rcases hci with h1 | h1 <;> rcases hcj with h2 | h2 <;>
    simp [Prod.ext_iff, h1, h2, add_assoc] <;> tauto

theorem edgeCoord_components_le (V : Nat) (f : Fin 4) (a w : Nat)
    (ha : a ≤ V - 1) (hw : w ≤ V - 1) :
    (edgeCoord V f a w).1 ≤ V - 1 ∧ (edgeCoord V f a w).2 ≤ V - 1 := by
  fin_cases f <;> simp [edgeCoord] <;> omega

theorem mem_edgeStripCoords (V inc s : Nat) (f : Fin 4) (z : Nat × Nat) :
    z ∈ edgeStripCoords V inc s f ↔
      ((∃ k < (V - 1) / s,
          z = edgeCoord V f (k * s) 0 ∨ z = edgeCoord V f (k * s + s) 0 ∨
          z = edgeCoord V f (clampInner V inc (k * s)) inc) ∨
       (∃ j < (V - 1 - 2 * inc) / inc,
          z = edgeCoord V f (inc + j * inc) inc ∨
          z = edgeCoord V f (inc + j * inc + inc) inc ∨
          z = edgeCoord V f (snapOuter s (inc + j * inc)) 0)) := by
  simp only [edgeStripCoords, List.mem_append, List.mem_flatMap, List.mem_range,
    List.mem_cons, List.mem_singleton, List.not_mem_nil, or_false]

/-- Every entry of an edge strip is either an outer-boundary vertex at a
multiple of the coarse step, or an inner-ring vertex one increment inward
with its along-edge position inside the inner span. -/
theorem strip_mem_along (V inc s : Nat) (hinc : 0 < inc) (hincV : 2 * inc ≤ V - 1)
    (f : Fin 4) (z : Nat × Nat) (hz : z ∈ edgeStripCoords V inc s f) :
    (∃ a, s ∣ a ∧ a ≤ V - 1 ∧ z = edgeCoord V f a 0) ∨
    (∃ a, inc ≤ a ∧ a ≤ V - 1 - inc ∧ z = edgeCoord V f a inc) := by
  rw [mem_edgeStripCoords] at hz
  have hod : (V - 1) / s * s ≤ V - 1 := Nat.div_mul_le_self _ _
  have hid : (V - 1 - 2 * inc) / inc * inc ≤ V - 1 - 2 * inc := Nat.div_mul_le_self _ _
  rcases hz with ⟨k, hk, h | h | h⟩ | ⟨j, hj, h | h | h⟩
  · refine Or.inl ⟨k * s, Dvd.intro k (mul_comm s k), ?_, h⟩
    have : (k + 1) * s ≤ (V - 1) / s * s := Nat.mul_le_mul_right s (by omega)
    have h2 : (k + 1) * s = k * s + s := by ring
    omega
  · refine Or.inl ⟨k * s + s, ⟨k + 1, by ring⟩, ?_, h⟩
    have : (k + 1) * s ≤ (V - 1) / s * s := Nat.mul_le_mul_right s (by omega)
    have h2 : (k + 1) * s = k * s + s := by ring
    omega
  · refine Or.inr ⟨clampInner V inc (k * s), ?_, ?_, h⟩
    · exact le_min (le_max_right _ _) (by omega)
    · exact min_le_right _ _
  · refine Or.inr ⟨inc + j * inc, by omega, ?_, h⟩
    have : (j + 1) * inc ≤ (V - 1 - 2 * inc) / inc * inc := Nat.mul_le_mul_right inc (by omega)
    have h2 : (j + 1) * inc = j * inc + inc := by ring
    omega
  · refine Or.inr ⟨inc + j * inc + inc, by omega, ?_, h⟩
    have : (j + 1) * inc ≤ (V - 1 - 2 * inc) / inc * inc := Nat.mul_le_mul_right inc (by omega)
    have h2 : (j + 1) * inc = j * inc + inc := by ring
    omega
  · refine Or.inl ⟨snapOuter s (inc + j * inc), Dvd.intro _ (mul_comm _ _), ?_, h⟩
    have h3 : snapOuter s (inc + j * inc) ≤ inc + j * inc := Nat.div_mul_le_self _ _
    have : (j + 1) * inc ≤ (V - 1 - 2 * inc) / inc * inc := Nat.mul_le_mul_right inc (by omega)
    have h2 : (j + 1) * inc = j * inc + inc := by ring
    omega

/-- Every outer-boundary vertex at a multiple of the coarse step is in the
edge strip. -/
theorem strip_outer_mem (V inc s : Nat) (hs : 0 < s) (hdvd : s ∣ V - 1)
    (hpos : 0 < V - 1) (f : Fin 4) (t : Nat) (ht : t ≤ V - 1) (hst : s ∣ t) :
    edgeCoord V f t 0 ∈ edgeStripCoords V inc s f := by
  have hn : (V - 1) / s * s = V - 1 := Nat.div_mul_cancel hdvd
  have hsle : s ≤ V - 1 := Nat.le_of_dvd hpos hdvd
  have hn1 : 1 ≤ (V - 1) / s := by
    rw [Nat.le_div_iff_mul_le hs]; omega
  obtain ⟨m, rfl⟩ := hst
  have hm : m ≤ (V - 1) / s := by
    by_contra hcon
    push_neg at hcon
    have : ((V - 1) / s + 1) * s ≤ m * s := Nat.mul_le_mul_right s (by omega)
    have h2 : ((V - 1) / s + 1) * s = (V - 1) / s * s + s := by ring
    have h3 : m * s = s * m := mul_comm _ _
    omega
  rw [mem_edgeStripCoords]
  rcases Nat.lt_or_ge m ((V - 1) / s) with hlt | hge
  · exact Or.inl ⟨m, hlt, Or.inl (by rw [mul_comm])⟩
  · have hme : m = (V - 1) / s := le_antisymm hm hge
    refine Or.inl ⟨m - 1, by omega, Or.inr (Or.inl ?_)⟩
    have h1 : (m - 1) * s + s = m * s := by
      have h2 : m - 1 + 1 = m := by omega
      calc (m - 1) * s + s = (m - 1 + 1) * s := by ring
      _ = m * s := by rw [h2]
    rw [h1, mul_comm]

/-- In the unstitched full-density sweep, a grid position is referenced
exactly when both its components are multiples of the node's own increment. -/
theorem fullgrid_mem_iff (p L : Nat) (hL : L ≤ p) (a b : Nat) (ha : a ≤ 2 ^ p) (hb : b ≤ 2 ^ p) :
    ((a, b) : Nat × Nat) ∈ interiorCoords (2 ^ L) 0 (2 ^ p / 2 ^ L) ↔
      (2 ^ L ∣ a ∧ 2 ^ L ∣ b) := by
  have hdvd : (2 : Nat) ^ L ∣ 2 ^ p := pow_dvd_pow 2 hL
  have hn : 2 ^ p / 2 ^ L * 2 ^ L = 2 ^ p := Nat.div_mul_cancel hdvd
  have hpos : 0 < 2 ^ L := pow_pos (by norm_num) L
  have hle : (2 : Nat) ^ L ≤ 2 ^ p := Nat.pow_le_pow_right (by norm_num) hL
  have hn1 : 0 < 2 ^ p / 2 ^ L := Nat.div_pos hle hpos
  constructor
  · intro h
    obtain ⟨⟨i, _, h1⟩, ⟨j, _, h2⟩⟩ := interiorCoords_components _ _ _ _ h
    simp only [zero_add] at h1 h2
    exact ⟨h1 ▸ Dvd.intro i (mul_comm _ _), h2 ▸ Dvd.intro j (mul_comm _ _)⟩
  · rintro ⟨⟨i, rfl⟩, ⟨j, rfl⟩⟩
    have hi : i ≤ 2 ^ p / 2 ^ L := by
      by_contra hcon
      push_neg at hcon
      have h1 : (2 ^ p / 2 ^ L + 1) * 2 ^ L ≤ i * 2 ^ L := Nat.mul_le_mul_right _ (by omega)
      have h2 : (2 ^ p / 2 ^ L + 1) * 2 ^ L = 2 ^ p / 2 ^ L * 2 ^ L + 2 ^ L := by ring
      have h3 : i * 2 ^ L = 2 ^ L * i := mul_comm _ _
      omega
    have hj : j ≤ 2 ^ p / 2 ^ L := by
      by_contra hcon
      push_neg at hcon
      have h1 : (2 ^ p / 2 ^ L + 1) * 2 ^ L ≤ j * 2 ^ L := Nat.mul_le_mul_right _ (by omega)
      have h2 : (2 ^ p / 2 ^ L + 1) * 2 ^ L = 2 ^ p / 2 ^ L * 2 ^ L + 2 ^ L := by ring
      have h3 : j * 2 ^ L = 2 ^ L * j := mul_comm _ _
      omega
    have := interiorCoords_mem_of (2 ^ L) 0 (2 ^ p / 2 ^ L) i j hn1 hi hj
    simpa [zero_add, mul_comm] using this

/-- On the full grid, the boundary vertices referenced along any edge are
exactly the multiples of the node's own increment. -/
theorem fullgrid_edge (p L : Nat) (hL : L ≤ p) (e : Fin 4) (t : Nat) (ht : t ≤ 2 ^ p) :
    edgeCoord (2 ^ p + 1) e t 0 ∈ interiorCoords (2 ^ L) 0 (2 ^ p / 2 ^ L) ↔ 2 ^ L ∣ t := by
  have hdP : (2 : Nat) ^ L ∣ 2 ^ p := pow_dvd_pow 2 hL
  have hV : 2 ^ p + 1 - 1 = 2 ^ p := by simp
  fin_cases e
  · show edgeCoord (2 ^ p + 1) 0 t 0 ∈ _ ↔ _
    rw [show edgeCoord (2 ^ p + 1) 0 t 0 = ((t, 2 ^ p) : Nat × Nat) from by
      simp [edgeCoord, hV]]
    rw [fullgrid_mem_iff p L hL t (2 ^ p) ht le_rfl]
    simp [hdP]
  · show edgeCoord (2 ^ p + 1) 1 t 0 ∈ _ ↔ _
    rw [show edgeCoord (2 ^ p + 1) 1 t 0 = ((2 ^ p, t) : Nat × Nat) from by
      simp [edgeCoord, hV]]
    rw [fullgrid_mem_iff p L hL (2 ^ p) t le_rfl ht]
    simp [hdP]
  · show edgeCoord (2 ^ p + 1) 2 t 0 ∈ _ ↔ _
    rw [show edgeCoord (2 ^ p + 1) 2 t 0 = ((t, 0) : Nat × Nat) from by
      simp [edgeCoord]]
    rw [fullgrid_mem_iff p L hL t 0 ht (by omega)]
    simp
  · show edgeCoord (2 ^ p + 1) 3 t 0 ∈ _ ↔ _
    rw [show edgeCoord (2 ^ p + 1) 3 t 0 = ((0, t) : Nat × Nat) from by
      simp [edgeCoord]]
    rw [fullgrid_mem_iff p L hL 0 t (by omega) ht]
    simp

/-- Components of positions in the trimmed interior sweep stay one increment
away from every boundary line. -/
theorem trimmed_components (p L : Nat) (hLp : L < p) (z : Nat × Nat)
    (hz : z ∈ interiorCoords (2 ^ L) (2 ^ L) ((2 ^ p - 2 * 2 ^ L) / 2 ^ L)) :
    2 ^ L ≤ z.1 ∧ z.1 ≤ 2 ^ p - 2 ^ L ∧ 2 ^ L ≤ z.2 ∧ z.2 ≤ 2 ^ p - 2 ^ L := by
  have hiP : 2 * 2 ^ L ≤ 2 ^ p := by
    have h1 : (2 : Nat) ^ (L + 1) ≤ 2 ^ p := Nat.pow_le_pow_right (by norm_num) hLp
    have h2 : (2 : Nat) ^ (L + 1) = 2 ^ L * 2 := pow_succ 2 L
    omega
  have hcm : (2 ^ p - 2 * 2 ^ L) / 2 ^ L * 2 ^ L ≤ 2 ^ p - 2 * 2 ^ L :=
    Nat.div_mul_le_self _ _
  obtain ⟨⟨i, hi, h1⟩, ⟨j, hj, h2⟩⟩ := interiorCoords_components _ _ _ _ hz
  have hi2 : i * 2 ^ L ≤ (2 ^ p - 2 * 2 ^ L) / 2 ^ L * 2 ^ L := Nat.mul_le_mul_right _ hi
  have hj2 : j * 2 ^ L ≤ (2 ^ p - 2 * 2 ^ L) / 2 ^ L * 2 ^ L := Nat.mul_le_mul_right _ hj
  omega

/-- A boundary vertex of edge `e` referenced by the strip of edge `f` is
either an outer vertex of `e`'s own strip (hence at a multiple of that
strip's coarse step) or one of the two shared grid corners. -/
theorem strip_mem_boundary_cases (p L sf : Nat) (hLp : L < p)
    (f e : Fin 4) (t : Nat) (ht : t ≤ 2 ^ p)
    (h : edgeCoord (2 ^ p + 1) e t 0 ∈ edgeStripCoords (2 ^ p + 1) (2 ^ L) sf f) :
    (e = f ∧ sf ∣ t) ∨ t = 0 ∨ t = 2 ^ p := by
  have hI : 0 < 2 ^ L := pow_pos (by norm_num) L
  have hP : 0 < 2 ^ p := pow_pos (by norm_num) p
  have hiP : 2 * 2 ^ L ≤ 2 ^ p := by
    have h1 : (2 : Nat) ^ (L + 1) ≤ 2 ^ p := Nat.pow_le_pow_right (by norm_num) hLp
    have h2 : (2 : Nat) ^ (L + 1) = 2 ^ L * 2 := pow_succ 2 L
    omega
  have hincV : 2 * 2 ^ L ≤ 2 ^ p + 1 - 1 := by omega
  rcases strip_mem_along (2 ^ p + 1) (2 ^ L) sf hI hincV f _ h with
    ⟨a, hdvda, ha, hza⟩ | ⟨a, ha1, ha2, hza⟩
  · fin_cases e <;> fin_cases f <;> simp [edgeCoord, Prod.mk.injEq] at hza <;>
      first
        | (left; exact ⟨rfl, by rw [show t = a from by omega]; exact hdvda⟩)
        | (right; omega)
        | (exfalso; omega)
  · fin_cases e <;> fin_cases f <;> simp [edgeCoord, Prod.mk.injEq] at hza <;>
      first
        | (right; omega)
        | (exfalso; omega)

/-- Master edge characterization: for a valid configuration, the boundary
vertex of edge `e` at along-position `t` is referenced by the generated
index sequence exactly when `t` is a multiple of `2 ^ (lodLevel + delta e)`. -/
theorem edge_mem_iff (p L : Nat) (d : Fin 4 → Nat) (hd : ∀ i, L + d i ≤ p)
    (e : Fin 4) (t : Nat) (ht : t ≤ 2 ^ p) :
    edgeCoord (2 ^ p + 1) e t 0 ∈ genCoords (2 ^ p + 1) L d ↔ 2 ^ (L + d e) ∣ t := by
  have hL : L ≤ p := le_trans (Nat.le_add_right L (d e)) (hd e)
  have hV : 2 ^ p + 1 - 1 = 2 ^ p := by simp
  by_cases hall : d 0 = 0 ∧ d 1 = 0 ∧ d 2 = 0 ∧ d 3 = 0
  · have hde : d e = 0 := by
      obtain ⟨h0, h1, h2, h3⟩ := hall
      fin_cases e
      exacts [h0, h1, h2, h3]
    simp only [genCoords]
    rw [if_pos hall, hV, hde, add_zero]
    exact fullgrid_edge p L hL e t ht
  · have hLp : L < p := by
      by_contra hc
      push_neg at hc
      refine hall ⟨?_, ?_, ?_, ?_⟩
      · have := hd 0; omega
      · have := hd 1; omega
      · have := hd 2; omega
      · have := hd 3; omega
    simp only [genCoords]
    rw [if_neg hall]
    constructor
    · intro hmem
      simp only [List.mem_append] at hmem
      rcases hmem with ⟨⟨⟨htrim | h0⟩ | h1⟩ | h2⟩ | h3
      · exfalso
        rw [hV] at htrim
        have hI : 0 < 2 ^ L := pow_pos (by norm_num) L
        have hiP : 2 * 2 ^ L ≤ 2 ^ p := by
          have h1 : (2 : Nat) ^ (L + 1) ≤ 2 ^ p := Nat.pow_le_pow_right (by norm_num) hLp
          have h2 : (2 : Nat) ^ (L + 1) = 2 ^ L * 2 := pow_succ 2 L
          omega
        have hcomp := trimmed_components p L hLp _ htrim
        fin_cases e <;> simp [edgeCoord] at hcomp <;> omega
      · rcases strip_mem_boundary_cases p L _ hLp 0 e t ht h0 with ⟨hef, hdvd⟩ | h | h
        · subst hef; exact hdvd
        · rw [h]; exact dvd_zero _
        · rw [h]; exact pow_dvd_pow 2 (hd e)
      · rcases strip_mem_boundary_cases p L _ hLp 1 e t ht h1 with ⟨hef, hdvd⟩ | h | h
        · subst hef; exact hdvd
        · rw [h]; exact dvd_zero _
        · rw [h]; exact pow_dvd_pow 2 (hd e)
      · rcases strip_mem_boundary_cases p L _ hLp 2 e t ht h2 with ⟨hef, hdvd⟩ | h | h
        · subst hef; exact hdvd
        · rw [h]; exact dvd_zero _
        · rw [h]; exact pow_dvd_pow 2 (hd e)
      · rcases strip_mem_boundary_cases p L _ hLp 3 e t ht h3 with ⟨hef, hdvd⟩ | h | h
        · subst hef; exact hdvd
        · rw [h]; exact dvd_zero _
        · rw [h]; exact pow_dvd_pow 2 (hd e)
    · intro hdt
      have hP : 0 < 2 ^ p := pow_pos (by norm_num) p
      have hdvdP : (2 : Nat) ^ (L + d e) ∣ 2 ^ p := pow_dvd_pow 2 (hd e)
      have hmem := strip_outer_mem (2 ^ p + 1) (2 ^ L) (2 ^ (L + d e))
        (pow_pos (by norm_num) _) (by rw [hV]; exact hdvdP) (by omega) e t (by omega) hdt
      simp only [List.mem_append]
      fin_cases e
      · exact Or.inl (Or.inl (Or.inl (Or.inr hmem)))
      · exact Or.inl (Or.inl (Or.inr hmem))
      · exact Or.inl (Or.inr hmem)
      · exact Or.inr hmem

/-- Both components of every strip entry stay on the grid. -/
theorem strip_components_le (p L s : Nat) (hLp : L < p) (f : Fin 4) (z : Nat × Nat)
    (hz : z ∈ edgeStripCoords (2 ^ p + 1) (2 ^ L) s f) : z.1 ≤ 2 ^ p ∧ z.2 ≤ 2 ^ p := by
  have hI : 0 < 2 ^ L := pow_pos (by norm_num) L
  have hiP : 2 * 2 ^ L ≤ 2 ^ p := by
    have h1 : (2 : Nat) ^ (L + 1) ≤ 2 ^ p := Nat.pow_le_pow_right (by norm_num) hLp
    have h2 : (2 : Nat) ^ (L + 1) = 2 ^ L * 2 := pow_succ 2 L
    omega
  rcases strip_mem_along (2 ^ p + 1) (2 ^ L) s hI (by omega) f z hz with
    ⟨a, _, ha, hza⟩ | ⟨a, _, ha, hza⟩
  · subst hza
    have := edgeCoord_components_le (2 ^ p + 1) f a 0 (by omega) (by omega)
    omega
  · subst hza
    have := edgeCoord_components_le (2 ^ p + 1) f a (2 ^ L) (by omega) (by omega)
    omega

/-- Every referenced grid position has both components on the grid. -/
theorem genCoords_le (p L : Nat) (d : Fin 4 → Nat) (hd : ∀ i, L + d i ≤ p)
    (z : Nat × Nat) (hz : z ∈ genCoords (2 ^ p + 1) L d) : z.1 ≤ 2 ^ p ∧ z.2 ≤ 2 ^ p := by
  have hL : L ≤ p := le_trans (Nat.le_add_right L (d 0)) (hd 0)
  have hV : 2 ^ p + 1 - 1 = 2 ^ p := by simp
  by_cases hall : d 0 = 0 ∧ d 1 = 0 ∧ d 2 = 0 ∧ d 3 = 0
  · simp only [genCoords] at hz
    rw [if_pos hall, hV] at hz
    obtain ⟨⟨i, hi, h1⟩, ⟨j, hj, h2⟩⟩ := interiorCoords_components _ _ _ _ hz
    have hn : 2 ^ p / 2 ^ L * 2 ^ L = 2 ^ p := Nat.div_mul_cancel (pow_dvd_pow 2 hL)
    have hi2 : i * 2 ^ L ≤ 2 ^ p / 2 ^ L * 2 ^ L := Nat.mul_le_mul_right _ hi
    have hj2 : j * 2 ^ L ≤ 2 ^ p / 2 ^ L * 2 ^ L := Nat.mul_le_mul_right _ hj
    omega
  · have hLp : L < p := by
      by_contra hc
      push_neg at hc
      refine hall ⟨?_, ?_, ?_, ?_⟩
      · have := hd 0; omega
      · have := hd 1; omega
      · have := hd 2; omega
      · have := hd 3; omega
    simp only [genCoords] at hz
    rw [if_neg hall] at hz
    simp only [List.mem_append] at hz
    rcases hz with ⟨⟨⟨htrim | h0⟩ | h1⟩ | h2⟩ | h3
    · rw [hV] at htrim
      have hI : 0 < 2 ^ L := pow_pos (by norm_num) L
      have := trimmed_components p L hLp _ htrim
      omega
    · exact strip_components_le p L _ hLp 0 z h0
    · exact strip_components_le p L _ hLp 1 z h1
    · exact strip_components_le p L _ hLp 2 z h2
    · exact strip_components_le p L _ hLp 3 z h3

/-- Full own-LOD density away from the boundary: every grid position whose
components are multiples of the node's increment and at least one increment
away from every edge is referenced, whatever the edge deltas are. -/
theorem interior_density (p L : Nat) (d : Fin 4 → Nat) (hd : ∀ i, L + d i ≤ p)
    (c r : Nat) (hcd : 2 ^ L ∣ c) (hrd : 2 ^ L ∣ r)
    (hcl : 2 ^ L ≤ c) (hcu : c ≤ 2 ^ p - 2 ^ L) (hrl : 2 ^ L ≤ r) (hru : r ≤ 2 ^ p - 2 ^ L) :
    ((c, r) : Nat × Nat) ∈ genCoords (2 ^ p + 1) L d := by
  have hL : L ≤ p := le_trans (Nat.le_add_right L (d 0)) (hd 0)
  have hI : 0 < 2 ^ L := pow_pos (by norm_num) L
  have hIle : (2 : Nat) ^ L ≤ 2 ^ p := Nat.pow_le_pow_right (by norm_num) hL
  have hV : 2 ^ p + 1 - 1 = 2 ^ p := by simp
  by_cases hall : d 0 = 0 ∧ d 1 = 0 ∧ d 2 = 0 ∧ d 3 = 0
  · simp only [genCoords]
    rw [if_pos hall, hV]
    exact (fullgrid_mem_iff p L hL c r (by omega) (by omega)).2 ⟨hcd, hrd⟩
  · have hLp : L < p := by
      by_contra hc
      push_neg at hc
      refine hall ⟨?_, ?_, ?_, ?_⟩
      · have := hd 0; omega
      · have := hd 1; omega
      · have := hd 2; omega
      · have := hd 3; omega
    have hiP : 2 * 2 ^ L ≤ 2 ^ p := by
      have h1 : (2 : Nat) ^ (L + 1) ≤ 2 ^ p := Nat.pow_le_pow_right (by norm_num) hLp
      have h2 : (2 : Nat) ^ (L + 1) = 2 ^ L * 2 := pow_succ 2 L
      omega
    simp only [genCoords]
    rw [if_neg hall]
    simp only [List.mem_append]
    by_cases hcen : 2 ^ p = 2 * 2 ^ L
    · have hc : c = 2 ^ L := by omega
      have hr : r = 2 ^ L := by omega
      refine Or.inl (Or.inl (Or.inl (Or.inr ?_)))
      rw [mem_edgeStripCoords]
      left
      have hs0 : (2 : Nat) ^ (L + d 0) ≤ 2 ^ p := Nat.pow_le_pow_right (by norm_num) (hd 0)
      have hs0p : 0 < (2 : Nat) ^ (L + d 0) := pow_pos (by norm_num) _
      refine ⟨0, Nat.div_pos (by omega) hs0p, Or.inr (Or.inr ?_)⟩
      simp only [Nat.zero_mul, edgeCoord, clampInner]
      norm_num
      omega
    · have hdvdP : (2 : Nat) ^ L ∣ 2 ^ p := pow_dvd_pow 2 hL
      have hdvd2 : (2 : Nat) ^ L ∣ 2 * 2 ^ L := ⟨2, by ring⟩
      have hcnt : (2 ^ p - 2 * 2 ^ L) / 2 ^ L * 2 ^ L = 2 ^ p - 2 * 2 ^ L :=
        Nat.div_mul_cancel (Nat.dvd_sub' hdvdP hdvd2)
      refine Or.inl (Or.inl (Or.inl (Or.inl ?_)))
      rw [hV]
      obtain ⟨m, rfl⟩ := hcd
      obtain ⟨n, rfl⟩ := hrd
      have hm1 : 1 ≤ m := by
        rcases Nat.eq_zero_or_pos m with h | h
        · subst h; rw [mul_zero] at hcl; omega
        · exact h
      have hn1 : 1 ≤ n := by
        rcases Nat.eq_zero_or_pos n with h | h
        · subst h; rw [mul_zero] at hrl; omega
        · exact h
      have hcount : 0 < (2 ^ p - 2 * 2 ^ L) / 2 ^ L := by
        rcases Nat.eq_zero_or_pos ((2 ^ p - 2 * 2 ^ L) / 2 ^ L) with h | h
        · rw [h] at hcnt; omega
        · exact h
      have hmle : m - 1 ≤ (2 ^ p - 2 * 2 ^ L) / 2 ^ L := by
        have h1 : (m - 1) * 2 ^ L ≤ (2 ^ p - 2 * 2 ^ L) / 2 ^ L * 2 ^ L := by
          have h2 : 2 ^ L * m = 2 ^ L + (m - 1) * 2 ^ L := by
            have h3 : 1 + (m - 1) = m := by omega
            calc 2 ^ L * m = (1 + (m - 1)) * 2 ^ L := by rw [h3]; ring
            _ = 2 ^ L + (m - 1) * 2 ^ L := by ring
          omega
        exact Nat.le_of_mul_le_mul_right h1 hI
      have hnle : n - 1 ≤ (2 ^ p - 2 * 2 ^ L) / 2 ^ L := by
        have h1 : (n - 1) * 2 ^ L ≤ (2 ^ p - 2 * 2 ^ L) / 2 ^ L * 2 ^ L := by
          have h2 : 2 ^ L * n = 2 ^ L + (n - 1) * 2 ^ L := by
            have h3 : 1 + (n - 1) = n := by omega
            calc 2 ^ L * n = (1 + (n - 1)) * 2 ^ L := by rw [h3]; ring
            _ = 2 ^ L + (n - 1) * 2 ^ L := by ring
          omega
        exact Nat.le_of_mul_le_mul_right h1 hI
      have hmm := interiorCoords_mem_of (2 ^ L) (2 ^ L) ((2 ^ p - 2 * 2 ^ L) / 2 ^ L)
        (m - 1) (n - 1) hcount hmle hnle
      have hic : 2 ^ L + (m - 1) * 2 ^ L = 2 ^ L * m := by
        have h3 : 1 + (m - 1) = m := by omega
        calc 2 ^ L + (m - 1) * 2 ^ L = (1 + (m - 1)) * 2 ^ L := by ring
        _ = 2 ^ L * m := by rw [h3]; ring
      have hir : 2 ^ L + (n - 1) * 2 ^ L = 2 ^ L * n := by
        have h3 : 1 + (n - 1) = n := by omega
        calc 2 ^ L + (n - 1) * 2 ^ L = (1 + (n - 1)) * 2 ^ L := by ring
        _ = 2 ^ L * n := by rw [h3]; ring
      rw [hic, hir] at hmm
      exact hmm

/-! ## Quadtree and LOD helper lemmas -/

theorem buildQuadTree_bX (minBatch x y : ℤ) (k : Nat) :
    (buildQuadTree minBatch x y k).bX = x := by
  cases k <;> rfl

theorem buildQuadTree_bY (minBatch x y : ℤ) (k : Nat) :
    (buildQuadTree minBatch x y k).bY = y := by
  cases k <;> rfl

theorem buildQuadTree_bSize (minBatch x y : ℤ) (k : Nat) :
    (buildQuadTree minBatch x y k).bSize = minBatch * 2 ^ k := by
  cases k with
  | zero => simp [buildQuadTree, QTree.bSize]
  | succ n => rfl

/-- The four half-size quadrants exactly partition a box of twice their
side: a point is in the parent box iff it is in exactly one quadrant. -/
theorem quadrant_partition (x y s px py : ℤ) :
    (inBox x y (2 * s) px py ↔
      (inBox x y s px py ∨ inBox (x + s) y s px py ∨
       inBox x (y + s) s px py ∨ inBox (x + s) (y + s) s px py)) ∧
    (¬(inBox x y s px py ∧ inBox (x + s) y s px py) ∧
     ¬(inBox x y s px py ∧ inBox x (y + s) s px py) ∧
     ¬(inBox x y s px py ∧ inBox (x + s) (y + s) s px py) ∧
     ¬(inBox (x + s) y s px py ∧ inBox x (y + s) s px py) ∧
     ¬(inBox (x + s) y s px py ∧ inBox (x + s) (y + s) s px py) ∧
     ¬(inBox x (y + s) s px py ∧ inBox (x + s) (y + s) s px py)) := by
  simp only [inBox]
  constructor
  · omega
  · refine ⟨?_, ?_, ?_, ?_, ?_, ?_⟩ <;> omega

/-- The built quadtree is well-formed for any batch-size window containing
the minimum batch size. -/
theorem WF_buildQuadTree (minB maxB x y : ℤ) (k : Nat) (hmm : minB ≤ maxB) :
    WF minB maxB (buildQuadTree minB x y k) := by
  induction k generalizing x y with
  | zero => exact ⟨le_refl _, hmm⟩
  | succ n ih =>
    have hsz : minB * 2 ^ (n + 1) = 2 * (minB * 2 ^ n) := by ring
    refine ⟨?_, ?_, ih x y, ih (x + minB * 2 ^ n) y, ih x (y + minB * 2 ^ n),
      ih (x + minB * 2 ^ n) (y + minB * 2 ^ n)⟩
    · intro px py
      simp only [inNodeBox, buildQuadTree_bX, buildQuadTree_bY, buildQuadTree_bSize, hsz]
      exact (quadrant_partition x y (minB * 2 ^ n) px py).1
    · intro px py
      simp only [inNodeBox, buildQuadTree_bX, buildQuadTree_bY, buildQuadTree_bSize]
      exact (quadrant_partition x y (minB * 2 ^ n) px py).2

/-- The per-frame LOD pass never changes the topology. -/
theorem shape_updateLODs (thresholds : List ℤ) (px py : ℤ) (t : QTree) :
    shape (updateLODs thresholds px py t) = shape t := by
  induction t with
  | leaf x y s lod => rfl
  | node x y s lod c0 c1 c2 c3 ih0 ih1 ih2 ih3 =>
    simp [updateLODs, shape, ih0, ih1, ih2, ih3]

/-- The threshold-count LOD function is monotone in the distance. -/
theorem computeLOD_mono (thresholds : List ℤ) (d1 d2 : ℤ) (h : d1 ≤ d2) :
    computeLOD thresholds d1 ≤ computeLOD thresholds d2 := by
  refine List.countP_mono_left ?_
  intro x _ hx
  simp only [decide_eq_true_eq] at hx ⊢
  omega

/-! ## Cache helper lemmas -/

theorem lookup_cons_self (k : Nat) (b : BufferEntry) (l : List (Nat × BufferEntry)) :
    List.lookup k ((k, b) :: l) = some b := by
  simp [List.lookup]

theorem lookup_cons_self_nat (k : Nat) (b : Nat) (l : List (Nat × Nat)) :
    List.lookup k ((k, b) :: l) = some b := by
  simp [List.lookup]

/-! ## Claim theorems -/

/-- C1: the key passed to `Terrain::getIndexBuffer` is a 20-bit stitch-flag
value: bits 0-15 hold the four edge LOD deltas (north/east/south/west order,
4 bits each) and bits 16-19 the node's own LOD; for in-range field values the
encoding is exact — each delta field and the own-LOD field decode back to the
encoded value, and the whole key fits in 20 bits. -/
theorem flag_key_layout (own dN dE dS dW : Nat)
    (h : own ≤ 15 ∧ dN ≤ 15 ∧ dE ≤ 15 ∧ dS ≤ 15 ∧ dW ≤ 15) :
    makeFlags own dN dE dS dW < 2 ^ 20 ∧
    decodeDelta (makeFlags own dN dE dS dW) 0 = dN ∧
    decodeDelta (makeFlags own dN dE dS dW) 1 = dE ∧
    decodeDelta (makeFlags own dN dE dS dW) 2 = dS ∧
    decodeDelta (makeFlags own dN dE dS dW) 3 = dW ∧
    decodeLod (makeFlags own dN dE dS dW) = own := by
  obtain ⟨h1, h2, h3, h4, h5⟩ := h
  simp only [makeFlags, decodeDelta, decodeLod,
    show ((0 : Fin 4) : Nat) = 0 from rfl, show ((1 : Fin 4) : Nat) = 1 from rfl,
    show ((2 : Fin 4) : Nat) = 2 from rfl, show ((3 : Fin 4) : Nat) = 3 from rfl]
  norm_num
  omega

theorem flag_key_layout_witness :
    ((3 ≤ 15 ∧ 1 ≤ 15 ∧ 2 ≤ 15 ∧ 0 ≤ 15 ∧ 15 ≤ 15) : Prop) ∧
    (makeFlags 3 1 2 0 15 < 2 ^ 20 ∧
     decodeDelta (makeFlags 3 1 2 0 15) 0 = 1 ∧
     decodeDelta (makeFlags 3 1 2 0 15) 1 = 2 ∧
     decodeDelta (makeFlags 3 1 2 0 15) 2 = 0 ∧
     decodeDelta (makeFlags 3 1 2 0 15) 3 = 15 ∧
     decodeLod (makeFlags 3 1 2 0 15) = 3) :=
  ⟨by decide, flag_key_layout 3 1 2 0 15 (by decide)⟩

/-- C2: for every valid stitch-flag configuration, every index emitted by the
index generation of `Terrain::getIndexBuffer` addresses a vertex inside the
grid: it is smaller than `gridSideLength * gridSideLength`. -/
theorem index_buffer_in_bounds (p L : Nat) (d : Fin 4 → Nat) (idx : Nat)
    (hd : ∀ i, L + d i ≤ p)
    (hidx : idx ∈ generateIndices (2 ^ p + 1) L d) :
    idx < (2 ^ p + 1) * (2 ^ p + 1) := by
  simp only [generateIndices, List.mem_map] at hidx
  obtain ⟨z, hz, rfl⟩ := hidx
  obtain ⟨h1, h2⟩ := genCoords_le p L d hd z hz
  simp only [vertIndex]
  have h3 : (2 ^ p + 1) * z.1 ≤ (2 ^ p + 1) * 2 ^ p := Nat.mul_le_mul_left _ h1
  have h4 : (2 ^ p + 1) * (2 ^ p + 1) = (2 ^ p + 1) * 2 ^ p + (2 ^ p + 1) := by ring
  omega

theorem index_buffer_in_bounds_witness :
    (∀ i : Fin 4, 0 + (![1, 0, 0, 0] : Fin 4 → Nat) i ≤ 2) ∧
    6 ∈ generateIndices (2 ^ 2 + 1) 0 ![1, 0, 0, 0] ∧
    6 < (2 ^ 2 + 1) * (2 ^ 2 + 1) :=
  ⟨by decide, by decide,
    index_buffer_in_bounds 2 0 ![1, 0, 0, 0] 6 (by decide) (by decide)⟩

/-- C3: a finer grid at LOD `L` stitching with delta `dd` towards its
neighbor and the coarser neighbor grid at LOD `L + dd` with delta 0 on the
shared edge reference exactly the same along-edge vertex positions, so the
shared edge has no crack; moreover the two corner vertices of the shared edge
are always referenced by the finer grid, whatever its other edge deltas are. -/
theorem stitching_no_crack (p L dd : Nat) (dF dC : Fin 4 → Nat) (eF eC : Fin 4)
    (t : Nat) (hF : ∀ i, L + dF i ≤ p) (hC : ∀ i, L + dd + dC i ≤ p)
    (heF : dF eF = dd) (heC : dC eC = 0) (ht : t ≤ 2 ^ p) :
    (edgeCoord (2 ^ p + 1) eF t 0 ∈ genCoords (2 ^ p + 1) L dF ↔
     edgeCoord (2 ^ p + 1) eC t 0 ∈ genCoords (2 ^ p + 1) (L + dd) dC) ∧
    edgeCoord (2 ^ p + 1) eF 0 0 ∈ genCoords (2 ^ p + 1) L dF ∧
    edgeCoord (2 ^ p + 1) eF (2 ^ p) 0 ∈ genCoords (2 ^ p + 1) L dF := by
  refine ⟨?_, ?_, ?_⟩
  · rw [edge_mem_iff p L dF hF eF t ht, edge_mem_iff p (L + dd) dC hC eC t ht,
      heF, heC, add_zero]
  · rw [edge_mem_iff p L dF hF eF 0 (Nat.zero_le _)]
    exact dvd_zero _
  · rw [edge_mem_iff p L dF hF eF (2 ^ p) le_rfl]
    have h1 := hF eF
    rw [heF] at h1
    rw [heF]
    exact pow_dvd_pow 2 h1

theorem stitching_no_crack_witness :
    (∀ i : Fin 4, 0 + (![1, 0, 0, 0] : Fin 4 → Nat) i ≤ 2) ∧
    (∀ i : Fin 4, 0 + 1 + (![0, 0, 0, 0] : Fin 4 → Nat) i ≤ 2) ∧
    ((![1, 0, 0, 0] : Fin 4 → Nat) 0 = 1) ∧ ((![0, 0, 0, 0] : Fin 4 → Nat) 2 = 0) ∧
    ((edgeCoord (2 ^ 2 + 1) 0 2 0 ∈ genCoords (2 ^ 2 + 1) 0 ![1, 0, 0, 0] ↔
      edgeCoord (2 ^ 2 + 1) 2 2 0 ∈ genCoords (2 ^ 2 + 1) (0 + 1) ![0, 0, 0, 0]) ∧
     edgeCoord (2 ^ 2 + 1) 0 0 0 ∈ genCoords (2 ^ 2 + 1) 0 ![1, 0, 0, 0] ∧
     edgeCoord (2 ^ 2 + 1) 0 (2 ^ 2) 0 ∈ genCoords (2 ^ 2 + 1) 0 ![1, 0, 0, 0]) :=
  ⟨by decide, by decide, by decide, by decide,
    stitching_no_crack 2 0 1 ![1, 0, 0, 0] ![0, 0, 0, 0] 0 2 2
      (by decide) (by decide) (by decide) (by decide) (by decide)⟩

/-- C4: along any edge the generated index sequence uses exactly the boundary
vertices at multiples of `2 ^ (lodLevel + delta)` — i.e. only every
`2 ^ delta`-th of the node's own-LOD edge vertices when the delta is nonzero,
and all of them when it is zero; and every interior grid position at the
node's own density (multiples of `2 ^ lodLevel`, one increment away from the
boundary) is referenced, so interior strips stay at full density. -/
theorem index_generation_density (p L : Nat) (d : Fin 4 → Nat) (e : Fin 4)
    (t c r : Nat) (hd : ∀ i, L + d i ≤ p) (ht : t ≤ 2 ^ p)
    (hcd : 2 ^ L ∣ c) (hrd : 2 ^ L ∣ r) (hcl : 2 ^ L ≤ c) (hcu : c ≤ 2 ^ p - 2 ^ L)
    (hrl : 2 ^ L ≤ r) (hru : r ≤ 2 ^ p - 2 ^ L) :
    (edgeCoord (2 ^ p + 1) e t 0 ∈ genCoords (2 ^ p + 1) L d ↔ 2 ^ (L + d e) ∣ t) ∧
    ((c, r) : Nat × Nat) ∈ genCoords (2 ^ p + 1) L d :=
  ⟨edge_mem_iff p L d hd e t ht,
   interior_density p L d hd c r hcd hrd hcl hcu hrl hru⟩

theorem index_generation_density_witness :
    (∀ i : Fin 4, 0 + (![1, 0, 0, 0] : Fin 4 → Nat) i ≤ 2) ∧
    (2 ≤ 2 ^ 2 ∧ 2 ^ 0 ∣ 1 ∧ 2 ^ 0 ≤ 1 ∧ 1 ≤ 2 ^ 2 - 2 ^ 0) ∧
    ((edgeCoord (2 ^ 2 + 1) 0 2 0 ∈ genCoords (2 ^ 2 + 1) 0 ![1, 0, 0, 0] ↔
      2 ^ (0 + (![1, 0, 0, 0] : Fin 4 → Nat) 0) ∣ 2) ∧
     ((1, 1) : Nat × Nat) ∈ genCoords (2 ^ 2 + 1) 0 ![1, 0, 0, 0]) :=
  ⟨by decide, by decide,
    index_generation_density 2 0 ![1, 0, 0, 0] 0 2 1 1 (by decide) (by decide)
      (by decide) (by decide) (by decide) (by decide) (by decide) (by decide)⟩

/-- C5: both buffer caches are idempotent and non-evicting: a second `get`
with the same key returns exactly the buffer and state produced by the first
call (the identical buffer instance, no new synthesis), and every entry
present before a `get` is still present afterwards. -/
theorem buffer_cache_idempotent (s : TerrainState) (flags nv : Nat) :
    getIndexBuffer (getIndexBuffer s flags).2 flags =
      ((getIndexBuffer s flags).1, (getIndexBuffer s flags).2) ∧
    getVertexBuffer (getVertexBuffer s nv).2 nv =
      ((getVertexBuffer s nv).1, (getVertexBuffer s nv).2) ∧
    (∀ en ∈ s.mIndexBufferMap, en ∈ (getIndexBuffer s flags).2.mIndexBufferMap) ∧
    (∀ en ∈ s.mUvBufferMap, en ∈ (getVertexBuffer s nv).2.mUvBufferMap) := by
  refine ⟨?_, ?_, ?_, ?_⟩
  · rcases h : List.lookup flags s.mIndexBufferMap with _ | b
    · simp [getIndexBuffer, h, lookup_cons_self]
    · simp [getIndexBuffer, h]
  · rcases h : List.lookup nv s.mUvBufferMap with _ | b
    · simp [getVertexBuffer, h, lookup_cons_self_nat]
    · simp [getVertexBuffer, h]
  · intro en hen
    rcases h : List.lookup flags s.mIndexBufferMap with _ | b
    · simp [getIndexBuffer, h, List.mem_cons]
      tauto
    · simpa [getIndexBuffer, h] using hen
  · intro en hen
    rcases h : List.lookup nv s.mUvBufferMap with _ | b
    · simp [getVertexBuffer, h, List.mem_cons]
      tauto
    · simpa [getVertexBuffer, h] using hen

theorem buffer_cache_idempotent_witness :
    getIndexBuffer (getIndexBuffer sampleState 5).2 5 =
      ((getIndexBuffer sampleState 5).1, (getIndexBuffer sampleState 5).2) ∧
    ((7, (⟨1, []⟩ : BufferEntry)) ∈ (getIndexBuffer sampleState 5).2.mIndexBufferMap) :=
  ⟨(buffer_cache_idempotent sampleState 5 3).1,
   (buffer_cache_idempotent sampleState 5 3).2.2.1 (7, ⟨1, []⟩) (by decide)⟩

/-- C6: LOD selection is monotonic in camera distance: a camera position
strictly closer to a node's box never gets a larger LOD than a farther one. -/
theorem lod_monotonic_in_distance (thresholds : List ℤ) (bx by2 bs : ℤ)
    (p1x p1y p2x p2y : ℤ)
    (h : distSqToBox bx by2 bs p1x p1y < distSqToBox bx by2 bs p2x p2y) :
    computeLOD thresholds (distSqToBox bx by2 bs p1x p1y) ≤
      computeLOD thresholds (distSqToBox bx by2 bs p2x p2y) :=
  computeLOD_mono thresholds _ _ (le_of_lt h)

theorem lod_monotonic_in_distance_witness :
    distSqToBox 0 0 2 1 1 < distSqToBox 0 0 2 5 0 ∧
    computeLOD [1, 9] (distSqToBox 0 0 2 1 1) ≤ computeLOD [1, 9] (distSqToBox 0 0 2 5 0) :=
  ⟨by decide, lod_monotonic_in_distance [1, 9] 0 0 2 1 1 5 0 (by decide)⟩

/-- C7: the tree built by `buildQuadTree` is well-formed — every non-leaf
node's four children partition its bounds with no gap and no overlap, every
leaf's side is within the batch-size window — and the per-frame LOD update
never changes the topology. -/
theorem quadtree_invariants (minB maxB x y : ℤ) (k : Nat) (th : List ℤ)
    (px py : ℤ) (t : QTree) (hmm : minB ≤ maxB) :
    WF minB maxB (buildQuadTree minB x y k) ∧
    shape (updateLODs th px py t) = shape t :=
  ⟨WF_buildQuadTree minB maxB x y k hmm, shape_updateLODs th px py t⟩

theorem quadtree_invariants_witness :
    ((1 : ℤ) ≤ 2) ∧
    WF 1 2 (buildQuadTree 1 0 0 1) ∧
    shape (updateLODs [3] 0 0 (buildQuadTree 1 0 0 1)) = shape (buildQuadTree 1 0 0 1) :=
  ⟨by decide, (quadtree_invariants 1 2 0 0 1 [3] 0 0 (buildQuadTree 1 0 0 1) (by decide)).1,
    (quadtree_invariants 1 2 0 0 1 [3] 0 0 (buildQuadTree 1 0 0 1) (by decide)).2⟩

/-- C8: every delta field of the stitch-flag key is stored clamped to the
4-bit maximum: the encoded field always decodes to `min delta 15`, the key is
the same as the key built from the clamped deltas, it still fits in 20 bits,
and index-buffer synthesis — a total function — treats it exactly as the
clamped key; an out-of-range delta can therefore never fail. -/
theorem stitch_delta_clamped (own dN dE dS dW verts : Nat) (hown : own ≤ 15) :
    decodeDelta (makeFlags own dN dE dS dW) 0 = min dN 15 ∧
    decodeDelta (makeFlags own dN dE dS dW) 1 = min dE 15 ∧
    decodeDelta (makeFlags own dN dE dS dW) 2 = min dS 15 ∧
    decodeDelta (makeFlags own dN dE dS dW) 3 = min dW 15 ∧
    makeFlags own dN dE dS dW < 2 ^ 20 ∧
    makeFlags own dN dE dS dW =
      makeFlags own (min dN 15) (min dE 15) (min dS 15) (min dW 15) ∧
    synthesizeIndexBuffer verts (makeFlags own dN dE dS dW) =
      synthesizeIndexBuffer verts
        (makeFlags own (min dN 15) (min dE 15) (min dS 15) (min dW 15)) := by
  have heq : makeFlags own dN dE dS dW =
      makeFlags own (min dN 15) (min dE 15) (min dS 15) (min dW 15) := by
    simp only [makeFlags]
    omega
  refine ⟨?_, ?_, ?_, ?_, ?_, heq, by rw [heq]⟩ <;>
    simp only [makeFlags, decodeDelta, decodeLod,
      show ((0 : Fin 4) : Nat) = 0 from rfl, show ((1 : Fin 4) : Nat) = 1 from rfl,
      show ((2 : Fin 4) : Nat) = 2 from rfl, show ((3 : Fin 4) : Nat) = 3 from rfl] <;>
    norm_num <;> omega

theorem stitch_delta_clamped_witness :
    (3 ≤ 15) ∧ decodeDelta (makeFlags 3 99 1 0 2) 0 = 15 :=
  ⟨by decide, ((stitch_delta_clamped 3 99 1 0 2 17 (by decide)).1).trans (by decide)⟩

/-- C9: terrain construction is rejected — no tree is built, the constructor
yields nothing — whenever the minimum batch size is at least the maximum, or
the bounds are not a power-of-two multiple of the minimum batch size. -/
theorem terrain_construction_rejects (minBatch maxBatch size : ℤ)
    (h : maxBatch ≤ minBatch ∨ pow2Compatible size minBatch = false) :
    mkTerrain minBatch maxBatch size = none := by
  rcases h with h | h
  · simp [mkTerrain, h]
  · by_cases h2 : maxBatch ≤ minBatch
    · simp [mkTerrain, h2]
    · have h3 : findPow2Exp size minBatch size.toNat = none := by
        rcases hf : findPow2Exp size minBatch size.toNat with _ | k
        · rfl
        · rw [pow2Compatible, hf] at h
          simp at h
      simp [mkTerrain, h2, h3]

theorem terrain_construction_rejects_witness :
    (((2 : ℤ) ≤ 4 ∨ pow2Compatible 16 4 = false) : Prop) ∧
    mkTerrain 4 2 16 = none :=
  ⟨Or.inl (by decide), terrain_construction_rejects 4 2 16 (Or.inl (by decide))⟩

/-- C10: `Terrain::getHeightAt` returns 0 for every world position — its
inline body is `return 0` — independently of the storage and of its
argument. -/
theorem getHeightAt_always_zero (storage storage2 : ℤ × ℤ → ℚ)
    (wp wq : ℤ × ℤ × ℤ) :
    getHeightAt storage wp = 0 ∧ getHeightAt storage wp = getHeightAt storage2 wq :=
  ⟨rfl, rfl⟩

end TerrainVerify
